import Mathlib

set_option maxHeartbeats 1600000

namespace SeekerScout

/-!
Shallow embedding of the adaptive discovery-and-enrichment pipeline of the
`solana-seeker-scout` repository.  Text is modelled as `List Char`, JavaScript
`Map`s as association lists with insertion-order update semantics, `Date`
values as milliseconds since the epoch (`Nat`), and floating-point rates as
exact rationals.
-/

/-! ## Scanner: src/src/scanners/domain-scanner.ts -/

/-- The tokenizing character class of the scanner regex
`[^\s　「」『』（）()[\]{}<>.,;:!?'"]` (negated) and of the validation
regex (positive): JavaScript `\s` whitespace together with the listed
bracket/quote/punctuation characters. -/
def delimiterChars : List Char :=
  ['\t', '\n', '\x0b', '\x0c', '\r', ' ', ' ', ' ',
   ' ', ' ', ' ', ' ', ' ', ' ', ' ',
   ' ', ' ', ' ', ' ', ' ', ' ', ' ',
   ' ', '　', '﻿',
   '「', '」', '『', '』', '（', '）',
   '(', ')', '[', ']', '\x7b', '\x7d', '<', '>', '.', ',', ';', ':', '!', '?', '\'', '"']

/-- A character of the tokenizing/validation class. -/
def isDelim (c : Char) : Bool := delimiterChars.contains c

/-- ASCII uppercase-to-lowercase table used to model
`String.prototype.toLowerCase` on the characters relevant here. -/
def lowerTable : List (Char × Char) :=
  [('A', 'a'), ('B', 'b'), ('C', 'c'), ('D', 'd'), ('E', 'e'), ('F', 'f'),
   ('G', 'g'), ('H', 'h'), ('I', 'i'), ('J', 'j'), ('K', 'k'), ('L', 'l'),
   ('M', 'm'), ('N', 'n'), ('O', 'o'), ('P', 'p'), ('Q', 'q'), ('R', 'r'),
   ('S', 's'), ('T', 't'), ('U', 'u'), ('V', 'v'), ('W', 'w'), ('X', 'x'),
   ('Y', 'y'), ('Z', 'z')]

/-- Model of `toLowerCase` on one character. -/
def jsToLower (c : Char) : Char :=
  ((lowerTable.find? (fun p => p.1 == c)).map Prod.snd).getD c

/-- Does the remainder of the text begin with the literal `.skr`
(case-insensitively, matching the regex `\.skr` under the `i` flag)? -/
def hasSkrSuffix (l : List Char) : Bool :=
  match l with
  | c0 :: c1 :: c2 :: c3 :: _ =>
      c0 == '.' && (c1 == 's' || c1 == 'S') && (c2 == 'k' || c2 == 'K') &&
        (c3 == 'r' || c3 == 'R')
  | _ => false

/-- Fuel-indexed scanner loop: repeated `exec` of the global regex
`([^‹class›]+\.skr)` over the text.  At a non-delimiter character the greedy
`+` consumes the maximal delimiter-free run; because `.` is itself in the
class, the only way to complete the match is with the literal `.skr`
immediately after the run, so backtracking is never needed.  On success the
scan resumes after the match (`lastIndex`); on failure it retries from the
next character. -/
def scanAux : Nat → List Char → List (List Char)
  | 0, _ => []
  | _ + 1, [] => []
  | fuel + 1, c :: cs =>
    if isDelim c then scanAux fuel cs
    else
      let run := (c :: cs).takeWhile (fun x => !isDelim x)
      let rest := (c :: cs).dropWhile (fun x => !isDelim x)
      if hasSkrSuffix rest then (run ++ rest.take 4) :: scanAux fuel (rest.drop 4)
      else scanAux fuel cs

/-- All raw matches of the domain pattern in the text. -/
def scanMatches (text : List Char) : List (List Char) :=
  scanAux text.length text

/-- `domain.replace(/^(https?:\/\/|\/\/|@)/, '')`. -/
def stripLeadMarker (m : List Char) : List Char :=
  match m with
  | 'h' :: 't' :: 't' :: 'p' :: 's' :: ':' :: '/' :: '/' :: rest => rest
  | 'h' :: 't' :: 't' :: 'p' :: ':' :: '/' :: '/' :: rest => rest
  | '/' :: '/' :: rest => rest
  | '@' :: rest => rest
  | other => other

/-- Marker stripping followed by lowercasing, as applied to each raw match. -/
def cleanDomain (m : List Char) : List Char :=
  (stripLeadMarker m).map jsToLower

/-- JavaScript `str.split('.')` on a character list. -/
def splitOnDot : List Char → List (List Char)
  | [] => [[]]
  | c :: cs =>
    if c = '.' then [] :: splitOnDot cs
    else
      match splitOnDot cs with
      | [] => [[c]]
      | p :: ps => (c :: p) :: ps

/-- `domain.endsWith('.skr')`. -/
def endsWithSkr (d : List Char) : Bool := List.isSuffixOf ['.', 's', 'k', 'r'] d

/-- One label check of `validateDomain`: non-empty and free of the
whitespace/bracket/punctuation class. -/
def labelOk (p : List Char) : Bool := !p.isEmpty && !(p.any isDelim)

/-- The `validateDomain` loop over `parts[0] … parts[length-2]` (every label
except the final suffix label). -/
def checkLabels : List (List Char) → Bool
  | [] => true
  | [_] => true
  | p :: ps => labelOk p && checkLabels ps

/-- `SkrDomainScanner.validateDomain`. -/
def validateDomain (d : List Char) : Bool :=
  endsWithSkr d && decide (2 ≤ (splitOnDot d).length) && checkLabels (splitOnDot d)

/-- The accumulation loop of `extractDomainsFromText`: clean each match, then
push it if it is new and valid. -/
def extractLoop : List (List Char) → List (List Char) → List (List Char)
  | [], acc => acc
  | m :: ms, acc =>
    let clean := cleanDomain m
    if !acc.contains clean && validateDomain clean then extractLoop ms (acc ++ [clean])
    else extractLoop ms acc

/-- `SkrDomainScanner.extractDomainsFromText`. -/
def extractDomainsFromText (text : List Char) : List (List Char) :=
  extractLoop (scanMatches text) []

/-- The `DomainMention` interface of the scanner. -/
structure DomainMention where
  domain : String
  username : String
  userId : Option String := none
  followers : Option Nat := none
  tweetId : String
  tweetText : String
  timestamp : String
deriving DecidableEq, Repr

/-- `Map.has` on an insertion-ordered association list. -/
def mapHas (m : List (String × α)) (k : String) : Bool := (m.map Prod.fst).contains k

/-- `Map.get` on an insertion-ordered association list. -/
def mapGet? (m : List (String × α)) (k : String) : Option α :=
  (m.find? (fun p => p.1 == k)).map Prod.snd

/-- `Map.get(k) ?? d`. -/
def mapGetD (m : List (String × α)) (k : String) (d : α) : α := (mapGet? m k).getD d

/-- `Map.set`: update the value in place when the key is present, keeping the
insertion position, otherwise append a fresh entry. -/
def mapSet (m : List (String × α)) (k : String) (v : α) : List (String × α) :=
  if mapHas m k then m.map (fun p => if p.1 == k then (k, v) else p) else m ++ [(k, v)]

/-- Lexicographic (code-unit) comparison underlying JavaScript `a < b` on
strings. -/
def charListLt : List Char → List Char → Bool
  | [], [] => false
  | [], _ :: _ => true
  | _ :: _, [] => false
  | a :: as, b :: bs =>
    if a.toNat < b.toNat then true
    else if b.toNat < a.toNat then false
    else charListLt as bs

/-- JavaScript `a < b` on strings. -/
def jsStrLt (a b : String) : Bool := charListLt a.toList b.toList

/-- The key used by `deduplicateMentions`:
`` `${mention.username}_${mention.domain}` ``. -/
def dedupKey (m : DomainMention) : String := m.username ++ "_" ++ m.domain

/-- One iteration of the `deduplicateMentions` loop. -/
def dedupStep (acc : List (String × DomainMention)) (mention : DomainMention) :
    List (String × DomainMention) :=
  let key := dedupKey mention
  match mapGet? acc key with
  | none => mapSet acc key mention
  | some existing =>
      if existing.timestamp = "" ∨ jsStrLt existing.timestamp mention.timestamp
      then mapSet acc key mention
      else acc

/-- `SkrDomainScanner.deduplicateMentions`. -/
def deduplicateMentions (mentions : List DomainMention) : List DomainMention :=
  (mentions.foldl dedupStep []).map Prod.snd

/-! ## Strategy engine: src/src/strategies/adaptive-search-strategy.ts -/

/-- The mutable `SearchContext` of the adaptive strategy.  `Date` values are
milliseconds since the epoch; the float average is an exact rational. -/
structure SearchContext where
  previousQueries : List String
  foundDomains : List String
  successfulQueries : List String
  failedQueries : List String
  totalResults : Nat
  currentHour : Nat
  lastSuccessfulSearch : Option Nat
  averageResultsPerQuery : ℚ
deriving DecidableEq, Repr

/-- `SearchMetrics`: two JavaScript `Map`s, kept as insertion-ordered
association lists. -/
structure SearchMetrics where
  queryPerformance : List (String × Nat)
  domainPopularity : List (String × Nat)
deriving DecidableEq, Repr

/-- The private state of `AdaptiveSearchStrategy`. -/
structure StrategyState where
  searchContext : SearchContext
  metrics : SearchMetrics
deriving DecidableEq, Repr

/-- The response record `{search_queries, reasoning}`. -/
structure SearchQueriesResponse where
  search_queries : List String
  reasoning : String
deriving DecidableEq, Repr

/-- JavaScript `String.prototype.includes`. -/
def hasSubstring (s sub : List Char) : Bool :=
  match s with
  | [] => sub.isEmpty
  | _ :: tail => (s.take sub.length == sub) || hasSubstring tail sub

/-- `s.includes(sub)` on strings. -/
def strIncludes (s sub : String) : Bool := hasSubstring s.toList sub.toList

/-- `AdaptiveSearchStrategy.updateContext`, with the two `new Date()` reads
passed in as `now` (epoch ms) and `hour` (`getHours()`). -/
def updateContext (st : StrategyState) (mentions : List DomainMention) (now hour : Nat) :
    StrategyState :=
  let ctx0 := st.searchContext
  let ctx1 := { ctx0 with
    currentHour := hour
    totalResults := ctx0.totalResults + mentions.length }
  let pair :=
    if mentions.length > 0 then
      mentions.foldl (fun (p : SearchContext × SearchMetrics) mention =>
        let c := p.1
        let m := p.2
        let c2 := if c.foundDomains.contains mention.domain then c
                  else { c with foundDomains := c.foundDomains ++ [mention.domain] }
        let m2 := { m with domainPopularity :=
          (mapSet m.domainPopularity mention.domain
            (mapGetD m.domainPopularity mention.domain 0 + 1)) }
        (c2, m2))
        ({ ctx1 with lastSuccessfulSearch := some now }, st.metrics)
    else (ctx1, st.metrics)
  let ctx2 := pair.1
  let met2 := pair.2
  let totalQueries := ctx2.previousQueries.length
  let avg : ℚ := if totalQueries > 0 then (ctx2.totalResults : ℚ) / (totalQueries : ℚ) else 0
  { searchContext := { ctx2 with averageResultsPerQuery := avg }, metrics := met2 }

/-- `AdaptiveSearchStrategy.calculateRecentSuccessRate`: fraction of the last
10 issued queries that are in the successful set. -/
def calculateRecentSuccessRate (ctx : SearchContext) : ℚ :=
  let recentQueries := ctx.previousQueries.drop (ctx.previousQueries.length - 10)
  let recentSuccessful := recentQueries.filter (fun q => ctx.successfulQueries.contains q)
  if recentQueries.length > 0
  then (recentSuccessful.length : ℚ) / (recentQueries.length : ℚ)
  else 0

/-- `AdaptiveSearchStrategy.determineSearchStrategy`. -/
def determineSearchStrategy (ctx : SearchContext) : String :=
  let recentSuccessRate := calculateRecentSuccessRate ctx
  if recentSuccessRate > 0.6 ∧ ctx.totalResults > 10 then "exploit"
  else if recentSuccessRate < 0.3 then "diversify"
  else "balanced"

/-- `AdaptiveSearchStrategy.filterUsedQueries`. -/
def filterUsedQueries (ctx : SearchContext) (queries : List String) : List String :=
  queries.filter (fun q => !ctx.previousQueries.contains q)

/-- The static template list of `getDiversificationQueries`. -/
def diversifyTemplates : List String :=
  ["bought my .skr", "set up .skr", "minting with .skr", ".skr address book",
   "DeFi .skr wallet", "trading via .skr", ".skr mobile payments",
   "secured .skr domain", "crypto .skr username", "blockchain .skr identity"]

/-- `AdaptiveSearchStrategy.getDiversificationQueries`. -/
def getDiversificationQueries (ctx : SearchContext) : SearchQueriesResponse :=
  let filteredQueries := filterUsedQueries ctx diversifyTemplates
  { search_queries := filteredQueries.take 6
    reasoning := "Diversification strategy: exploring new search angles and untapped niches" }

/-- `AdaptiveSearchStrategy.analyzeSuccessfulPatterns`. -/
def analyzeSuccessfulPatterns (ctx : SearchContext) : List String :=
  let patterns := ctx.successfulQueries.foldl (fun acc query =>
    let acc := if strIncludes query "#" then acc ++ ["hashtag-based"] else acc
    let acc := if strIncludes query "@" then acc ++ ["mention-based"] else acc
    let acc := if strIncludes query "\"" then acc ++ ["exact-phrase"] else acc
    let acc := if query.toList.any (fun c => c.toNat < 0x20 || c.toNat > 0x7F)
               then acc ++ ["non-english"] else acc
    let acc := if strIncludes query ".skr" then acc ++ ["direct-domain"] else acc
    acc) []
  patterns.eraseDups

/-- `AdaptiveSearchStrategy.getExploitationQueries`. -/
def getExploitationQueries (ctx : SearchContext) : SearchQueriesResponse :=
  let successfulPatterns := analyzeSuccessfulPatterns ctx
  let exploitQueries := (ctx.successfulQueries.take 3).foldl (fun acc query =>
    if strIncludes query ".skr"
    then acc ++ [query ++ " wallet", query ++ " domain", "new " ++ query]
    else acc) []
  let exploitQueries :=
    if exploitQueries.isEmpty
    then ["solana mobile .skr", ".skr wallet setup", "registered .skr domain"]
    else exploitQueries
  let filteredQueries := filterUsedQueries ctx exploitQueries
  { search_queries := filteredQueries.take 6
    reasoning := "Exploitation strategy: building on successful patterns: " ++
      String.intercalate ", " successfulPatterns }

/-- The hard-coded trend list of `getTrendSurfingQueries`. -/
def mockTrends : List String := ["Solana", "crypto", "NFT", "mobile", "blockchain", "DeFi"]

/-- `AdaptiveSearchStrategy.getTrendSurfingQueries`. -/
def getTrendSurfingQueries (ctx : SearchContext) : SearchQueriesResponse :=
  let trendQueries := (mockTrends.take 4).map (fun trend => trend ++ " .skr")
  { search_queries := filterUsedQueries ctx trendQueries
    reasoning := "Trend-surfing strategy: combining trending topics with .skr domains" }

/-- `AdaptiveSearchStrategy.getTimeOptimizedQueries`; the `new Date().getHours()`
read is passed in as `hour`. -/
def getTimeOptimizedQueries (ctx : SearchContext) (hour : Nat) : SearchQueriesResponse :=
  let bestPerformingHour := ctx.currentHour
  let timeQueries :=
    if 9 ≤ hour ∧ hour ≤ 12 then ["morning .skr setup", "daily .skr check", "work with .skr"]
    else if 18 ≤ hour ∧ hour ≤ 22 then ["evening .skr trade", "tonight .skr mint", "crypto .skr news"]
    else ["late night .skr", "quiet .skr time", "overnight .skr"]
  { search_queries := filterUsedQueries ctx timeQueries
    reasoning := "Time optimization: targeting queries effective during hour " ++
      toString bestPerformingHour }

/-- The profile counters of `analyzeUserProfiles`. -/
structure UserProfiles where
  developers : Nat
  traders : Nat
  gamers : Nat
  nftCollectors : Nat
deriving DecidableEq, Repr

/-- `AdaptiveSearchStrategy.analyzeUserProfiles`. -/
def analyzeUserProfiles (ctx : SearchContext) : UserProfiles :=
  ctx.foundDomains.foldl (fun p domain =>
    if strIncludes domain "dev" || strIncludes domain "code" || strIncludes domain "build"
    then { p with developers := p.developers + 1 }
    else if strIncludes domain "trade" || strIncludes domain "dex" || strIncludes domain "swap"
    then { p with traders := p.traders + 1 }
    else if strIncludes domain "game" || strIncludes domain "play" || strIncludes domain "win"
    then { p with gamers := p.gamers + 1 }
    else if strIncludes domain "nft" || strIncludes domain "art" || strIncludes domain "collect"
    then { p with nftCollectors := p.nftCollectors + 1 }
    else p) ⟨0, 0, 0, 0⟩

/-- `AdaptiveSearchStrategy.getUserTargetedQueries`. -/
def getUserTargetedQueries (ctx : SearchContext) : SearchQueriesResponse :=
  let userProfiles := analyzeUserProfiles ctx
  let queries :=
    (if userProfiles.developers < userProfiles.traders
     then ["building on .skr", "dev .skr domains", "coding .skr"] else []) ++
    (if userProfiles.traders < userProfiles.developers
     then ["trading .skr", ".skr price", "buying .skr"] else []) ++
    (if userProfiles.gamers < userProfiles.nftCollectors
     then ["gaming .skr", "game .skr domain", "esports .skr"] else []) ++
    (if userProfiles.nftCollectors < userProfiles.gamers
     then ["NFT .skr", "collecting .skr", "mint .skr"] else [])
  let queries := if queries.isEmpty then [".skr wallet", ".skr domain", ".skr address"] else queries
  { search_queries := (filterUsedQueries ctx queries).take 6
    reasoning := "User targeting: focusing on underrepresented segments" }

/-- The static template list of `getBalancedQueries`. -/
def balancedTemplates : List String :=
  ["solana mobile .skr", ".skr wallet setup", "registered .skr domain",
   "claiming .skr", "my new .skr", ".skr blockchain"]

/-- `AdaptiveSearchStrategy.getBalancedQueries`. -/
def getBalancedQueries (ctx : SearchContext) : SearchQueriesResponse :=
  { search_queries := filterUsedQueries ctx balancedTemplates
    reasoning := "Balanced strategy: proven reliable query patterns" }

/-- The `switch (strategy)` of `getNextSearchQueries` (default: balanced). -/
def generateForStrategy (strategy : String) (ctx : SearchContext) (hour : Nat) :
    SearchQueriesResponse :=
  if strategy = "diversify" then getDiversificationQueries ctx
  else if strategy = "exploit" then getExploitationQueries ctx
  else if strategy = "trend-surf" then getTrendSurfingQueries ctx
  else if strategy = "time-optimize" then getTimeOptimizedQueries ctx hour
  else if strategy = "user-target" then getUserTargetedQueries ctx
  else getBalancedQueries ctx

/-- `AdaptiveSearchStrategy.getNextSearchQueries`: update the context, pick a
strategy, generate its queries and append them to the issued-query history. -/
def getNextSearchQueries (st : StrategyState) (mentions : List DomainMention)
    (now hour : Nat) : List String × StrategyState :=
  let st1 := updateContext st mentions now hour
  let strategy := determineSearchStrategy st1.searchContext
  let resp := generateForStrategy strategy st1.searchContext hour
  let ctx2 := { st1.searchContext with
    previousQueries := st1.searchContext.previousQueries ++ resp.search_queries }
  (resp.search_queries, { st1 with searchContext := ctx2 })

/-- `AdaptiveSearchStrategy.recordQueryResult`. -/
def recordQueryResult (st : StrategyState) (query : String) (resultCount : Nat) :
    StrategyState :=
  let met := { st.metrics with
    queryPerformance := mapSet st.metrics.queryPerformance query resultCount }
  let ctx := st.searchContext
  let ctx :=
    if resultCount > 0 then
      if ctx.successfulQueries.contains query then ctx
      else { ctx with successfulQueries := ctx.successfulQueries ++ [query] }
    else
      if ctx.failedQueries.contains query then ctx
      else { ctx with failedQueries := ctx.failedQueries ++ [query] }
  { searchContext := ctx, metrics := met }

/-- The object produced by `AdaptiveSearchStrategy.saveState`: the context plus
the two metric maps flattened with `Array.from(map.entries())`. -/
structure SavedState where
  searchContext : SearchContext
  queryPerformanceEntries : List (String × Nat)
  domainPopularityEntries : List (String × Nat)
deriving DecidableEq, Repr

/-- `AdaptiveSearchStrategy.saveState`. -/
def saveState (st : StrategyState) : SavedState :=
  { searchContext := st.searchContext
    queryPerformanceEntries := st.metrics.queryPerformance
    domainPopularityEntries := st.metrics.domainPopularity }

/-- `new Map(entries)`: insert the entries in order (later duplicates win). -/
def jsNewMap (entries : List (String × Nat)) : List (String × Nat) :=
  entries.foldl (fun m p => mapSet m p.1 p.2) []

/-- `new Date(d)` applied to a stored time value: reconstructs the same point
in time. -/
def jsNewDate (t : Nat) : Nat := t

/-- `AdaptiveSearchStrategy.loadState`. -/
def loadState (s : SavedState) : StrategyState :=
  let ctx := s.searchContext
  let ctx :=
    match ctx.lastSuccessfulSearch with
    | some t => { ctx with lastSuccessfulSearch := some (jsNewDate t) }
    | none => ctx
  { searchContext := ctx
    metrics :=
      { queryPerformance := jsNewMap s.queryPerformanceEntries
        domainPopularity := jsNewMap s.domainPopularityEntries } }

/-! ## Local generator: src/src/strategies/local-intelligent-generator.ts -/

/-- The success rate of `LocalIntelligentGenerator.determineStrategy`:
successful queries over all issued queries. -/
def localSuccessRate (ctx : SearchContext) : ℚ :=
  if ctx.previousQueries.length > 0
  then (ctx.successfulQueries.length : ℚ) / (ctx.previousQueries.length : ℚ)
  else 0

/-- `hoursSinceLastSuccess` of the local generator: elapsed hours, or 24 when
no success has been recorded. -/
def localHoursSinceLastSuccess (now : Nat) (ctx : SearchContext) : ℚ :=
  match ctx.lastSuccessfulSearch with
  | some t => ((now : ℚ) - (t : ℚ)) / (1000 * 60 * 60)
  | none => 24

/-- `LocalIntelligentGenerator.determineStrategy`, with `Date.now()` passed in
as `now`. -/
def localDetermineStrategy (now : Nat) (ctx : SearchContext) : String :=
  if localSuccessRate ctx > 0.6 ∧ ctx.totalResults > 10 then "exploit"
  else if localHoursSinceLastSuccess now ctx > 4 ∨ localSuccessRate ctx < 0.2 then "diversify"
  else if 9 ≤ ctx.currentHour ∧ ctx.currentHour ≤ 12 then "peak-morning"
  else if 18 ≤ ctx.currentHour ∧ ctx.currentHour ≤ 22 then "peak-evening"
  else "balanced"

/-- The strategy-selection rule set exactly as claim C1 words it, written from
the specification for comparison with the source functions: exploit when the
recent (last-10) success rate exceeds 0.6 and the cumulative result count
exceeds 10; else diversify when more than 4 hours have passed since the last
success or the recent rate is below 0.2; balanced as the final default. -/
def claimSelectStrategy (now : Nat) (ctx : SearchContext) : String :=
  if calculateRecentSuccessRate ctx > 0.6 ∧ ctx.totalResults > 10 then "exploit"
  else if localHoursSinceLastSuccess now ctx > 4 ∨ calculateRecentSuccessRate ctx < 0.2
  then "diversify"
  else "balanced"

/-! ## Discovery cycles (`DataScout.runScoutCycle` interaction with the
strategy engine): one batch per cycle, each query's result count recorded. -/

/-- The external observations of one cycle: the mentions fed back from the
previous cycle's searches, the two clock reads, and the per-query result
counts the search collaborator will report. -/
structure CycleInput where
  mentions : List DomainMention
  now : Nat
  hour : Nat
  results : List (String × Nat)
deriving Repr

/-- Iterated cycles: generate a batch, then record each of its queries'
result counts, exactly as `runScoutCycle` drives `AdaptiveSearchStrategy`. -/
def runCycles (st : StrategyState) : List CycleInput → List (List String) × StrategyState
  | [] => ([], st)
  | ci :: rest =>
    let step := getNextSearchQueries st ci.mentions ci.now ci.hour
    let st2 := step.1.foldl (fun s q => recordQueryResult s q (mapGetD ci.results q 0)) step.2
    let next := runCycles st2 rest
    (step.1 :: next.1, next.2)

/-! ## Enrichment stage: `DataScout.enrichWithUserData`
(src/src/agents/harvester-agent.ts) -/

/-- The user record returned by the user-lookup collaborator. -/
structure UserDetails where
  id : String
  followers_count : Nat
deriving DecidableEq, Repr

/-- One analytics record (`ScoutedData`). -/
structure ScoutedData where
  domain : String
  username : String
  userId : Option String
  followers : Nat
  tweetId : String
  tweetText : String
  timestamp : String
  scoutedAt : String
deriving DecidableEq, Repr

/-- The progress counters (`ScoutProgress`). -/
structure ScoutProgress where
  totalScanned : Nat
  domainsFound : Nat
  usersProcessed : Nat
  lastCheckpoint : String
  errors : List String
deriving DecidableEq, Repr

/-- The persistent fields of `DataScout` used by enrichment and checkpointing. -/
structure ScoutState where
  scoutedData : List ScoutedData
  processedUsers : List String
  progress : ScoutProgress
  adaptive : StrategyState
deriving DecidableEq, Repr

/-- `Set.add`: no duplicate membership. -/
def setAdd (s : List String) (x : String) : List String :=
  if s.contains x then s else s ++ [x]

/-- The stored record looked up by
`this.scoutedData.find(item => item.username === m.username && item.domain === m.domain)`. -/
def cachedRecord? (st : ScoutState) (m : DomainMention) : Option ScoutedData :=
  st.scoutedData.find? (fun item => item.username == m.username && item.domain == m.domain)

/-- Accumulator of the `enrichWithUserData` loop: the evolving scout state,
the returned `enrichedData`, and the trace of mentions for which
`getUserDetails` was actually invoked. -/
structure EnrichAcc where
  st : ScoutState
  enriched : List ScoutedData
  lookups : List DomainMention
deriving Repr

/-- One iteration of `enrichWithUserData`.  A mention whose author is in
`processedUsers` and has a stored record for the same domain is served from
the store; otherwise `getUserDetails` is called (recorded in `lookups`; a
thrown lookup behaves like a `null` result apart from the error log). -/
def enrichStep (lookup : String → Option UserDetails) (nowStr : String)
    (acc : EnrichAcc) (mention : DomainMention) : EnrichAcc :=
  match (if acc.st.processedUsers.contains mention.username
         then cachedRecord? acc.st mention else none) with
  | some existing => { acc with enriched := acc.enriched ++ [existing] }
  | none =>
    let acc := { acc with lookups := acc.lookups ++ [mention] }
    match lookup mention.username with
    | some userDetails =>
        let item : ScoutedData :=
          { domain := mention.domain
            username := mention.username
            userId := some userDetails.id
            followers := userDetails.followers_count
            tweetId := mention.tweetId
            tweetText := mention.tweetText
            timestamp := mention.timestamp
            scoutedAt := nowStr }
        { st :=
            { acc.st with
              scoutedData := acc.st.scoutedData ++ [item]
              processedUsers := setAdd acc.st.processedUsers mention.username
              progress := { acc.st.progress with
                usersProcessed := acc.st.progress.usersProcessed + 1
                domainsFound := acc.st.progress.domainsFound + 1 } }
          enriched := acc.enriched ++ [item]
          lookups := acc.lookups }
    | none => acc

/-- `DataScout.enrichWithUserData` over a mention list. -/
def enrichWithUserData (st : ScoutState) (mentions : List DomainMention)
    (lookup : String → Option UserDetails) (nowStr : String) : EnrichAcc :=
  mentions.foldl (enrichStep lookup nowStr) { st := st, enriched := [], lookups := [] }

/-! ## Checkpoint writes: `DataScout.saveData` / `saveAdaptiveState` -/

/-- The document written to one output file. -/
inductive FileDoc where
  | dataDoc (records : List ScoutedData)
  | csvDoc (records : List ScoutedData)
  | progressDoc (p : ScoutProgress)
  | adaptiveDoc (s : SavedState)
deriving DecidableEq, Repr

/-- A filesystem operation; `fs.writeFileSync` is a direct in-place `write`. -/
inductive FsOp where
  | write (path : String) (content : FileDoc)
  | rename (src dst : String)
deriving DecidableEq, Repr

/-- Is the operation a rename? -/
def FsOp.isRename : FsOp → Bool
  | .rename _ _ => true
  | _ => false

/-- The sequence of filesystem operations performed by `DataScout.saveData`
(which ends by calling `saveAdaptiveState`): four direct writes, in source
order, with `progress.lastCheckpoint` refreshed before the progress write. -/
def saveDataOps (st : ScoutState) (nowStr : String) (outputDir : String) : List FsOp :=
  [FsOp.write (outputDir ++ "/scouted_data.json") (FileDoc.dataDoc st.scoutedData),
   FsOp.write (outputDir ++ "/scouted_data.csv") (FileDoc.csvDoc st.scoutedData),
   FsOp.write (outputDir ++ "/progress.json")
     (FileDoc.progressDoc { st.progress with lastCheckpoint := nowStr }),
   FsOp.write (outputDir ++ "/adaptive_state.json")
     (FileDoc.adaptiveDoc (saveState st.adaptive))]

/-- Apply one filesystem operation to a path-indexed store. -/
def applyOp (fs : String → Option FileDoc) : FsOp → String → Option FileDoc
  | FsOp.write p d => fun q => if q = p then some d else fs q
  | FsOp.rename src dst => fun q =>
      if q = src then none else if q = dst then fs src else fs q

/-- Apply a sequence of filesystem operations. -/
def applyOps (fs : String → Option FileDoc) (ops : List FsOp) : String → Option FileDoc :=
  ops.foldl applyOp fs

/-- What a fresh `DataScout` reads back (`loadExistingData` + `loadAdaptiveState`):
the data, progress and adaptive-state documents. -/
def loadView (fs : String → Option FileDoc) (outputDir : String) :
    Option FileDoc × Option FileDoc × Option FileDoc :=
  (fs (outputDir ++ "/scouted_data.json"),
   fs (outputDir ++ "/progress.json"),
   fs (outputDir ++ "/adaptive_state.json"))

/-! ## Concrete inputs used by the witness and counterexample theorems -/

/-- Empty performance metrics. -/
def emptyMetrics : SearchMetrics := { queryPerformance := [], domainPopularity := [] }

/-- A context with 4 issued queries, 1 successful (recent rate 1/4), 5 results
and a success one hour before `exNowC1`. -/
def exCtxC1 : SearchContext :=
  { previousQueries := ["q1", "q2", "q3", "q4"]
    foundDomains := []
    successfulQueries := ["q1"]
    failedQueries := []
    totalResults := 5
    currentHour := 14
    lastSuccessfulSearch := some 3600000
    averageResultsPerQuery := 0 }

/-- Two hours past the epoch: one hour after `exCtxC1`'s last success. -/
def exNowC1 : Nat := 7200000

/-- The specification's scenario context: two issued queries, none
successful, no results. -/
def exCtxScenario : SearchContext :=
  { previousQueries := ["a", ".skr wallet setup"]
    foundDomains := []
    successfulQueries := []
    failedQueries := []
    totalResults := 0
    currentHour := 14
    lastSuccessfulSearch := none
    averageResultsPerQuery := 0 }

/-- A context with recent success rate 1 and 11 cumulative results. -/
def exCtxExploit : SearchContext :=
  { previousQueries := ["a"]
    foundDomains := []
    successfulQueries := ["a"]
    failedQueries := []
    totalResults := 11
    currentHour := 14
    lastSuccessfulSearch := some 0
    averageResultsPerQuery := 0 }

/-- A fresh strategy state. -/
def exState0 : StrategyState :=
  { searchContext :=
      { previousQueries := []
        foundDomains := []
        successfulQueries := []
        failedQueries := []
        totalResults := 0
        currentHour := 14
        lastSuccessfulSearch := none
        averageResultsPerQuery := 0 }
    metrics := emptyMetrics }

/-- A state whose issued-query history is exactly the diversification
template list, so the diversify strategy has no fresh query left. -/
def exStateC7 : StrategyState :=
  { searchContext :=
      { previousQueries := diversifyTemplates
        foundDomains := []
        successfulQueries := []
        failedQueries := []
        totalResults := 0
        currentHour := 14
        lastSuccessfulSearch := none
        averageResultsPerQuery := 0 }
    metrics := emptyMetrics }

/-- Two cycle inputs with no mentions and no search results. -/
def exCycle : CycleInput := { mentions := [], now := 0, hour := 14, results := [] }

/-- Mention with username `a_b` of domain `c.skr`. -/
def exM1 : DomainMention :=
  { domain := "c.skr", username := "a_b", tweetId := "t1", tweetText := "x", timestamp := "2024" }

/-- Mention with username `a` of domain `b_c.skr`: a different
(author, domain) pair whose concatenated key collides with `exM1`'s. -/
def exM2 : DomainMention :=
  { domain := "b_c.skr", username := "a", tweetId := "t2", tweetText := "y", timestamp := "2025" }

/-- First of two mentions of the same (author, domain) pair, both with an
absent (empty) timestamp. -/
def exTie1 : DomainMention :=
  { domain := "d.skr", username := "u", tweetId := "t1", tweetText := "x", timestamp := "" }

/-- Second mention of the same pair, also with an absent timestamp. -/
def exTie2 : DomainMention :=
  { domain := "d.skr", username := "u", tweetId := "t2", tweetText := "y", timestamp := "" }

/-- A reachable strategy state with non-empty metric maps. -/
def exState5 : StrategyState :=
  { searchContext := exCtxC1
    metrics := { queryPerformance := [("a", 3), ("b", 0)], domainPopularity := [("x.skr", 2)] } }

/-- Zeroed progress counters. -/
def exProgress0 : ScoutProgress :=
  { totalScanned := 0, domainsFound := 0, usersProcessed := 0
    lastCheckpoint := "c0", errors := [] }

/-- A stored analytics record for author `alice` and domain `a.skr`. -/
def exAliceRecord : ScoutedData :=
  { domain := "a.skr", username := "alice", userId := some "1", followers := 5
    tweetId := "t", tweetText := "tx", timestamp := "ts", scoutedAt := "s0" }

/-- Scout state with no records. -/
def exScout0 : ScoutState :=
  { scoutedData := [], processedUsers := [], progress := exProgress0
    adaptive := exState0 }

/-- Scout state holding `exAliceRecord`, with `alice` processed. -/
def exScout1 : ScoutState :=
  { scoutedData := [exAliceRecord], processedUsers := ["alice"], progress := exProgress0
    adaptive := exState5 }

/-- The default output directory of `DataScout`. -/
def exDir : String := "./output/scout-results"

/-- A fresh mention of the cached pair (`alice`, `a.skr`). -/
def exMentionAlice : DomainMention :=
  { domain := "a.skr", username := "alice", tweetId := "t9", tweetText := "again", timestamp := "ts2" }

/-- A user-lookup collaborator that finds nobody. -/
def exLookup : String → Option UserDetails := fun _ => none

/-- The enrichment cache condition for an (author, domain) pair: the author is
in `processedUsers` and a record for the pair is in `scoutedData`. -/
def cachedPair (st : ScoutState) (u d : String) : Prop :=
  st.processedUsers.contains u = true ∧
    ∃ item ∈ st.scoutedData, item.username = u ∧ item.domain = d

instance (st : ScoutState) (u d : String) : Decidable (cachedPair st u d) := by
  unfold cachedPair; infer_instance

/-! ## C10 -/

/-- C10: the deduplication key is the concatenation `username ++ "_" ++ domain`,
which is not injective on (author, domain) pairs: the mentions `exM1`
(author `a_b`, domain `c.skr`) and `exM2` (author `a`, domain `b_c.skr`) have
pairwise distinct authors and domains yet collide on the key, so the output
has one record where there are two distinct (author, domain) pairs. -/
theorem C10_key_collision :
    exM1.username ≠ exM2.username ∧ exM1.domain ≠ exM2.domain ∧
    dedupKey exM1 = dedupKey exM2 ∧
    (deduplicateMentions [exM1, exM2]).length = 1 := by decide

/-! ## C1 -/

unseal Rat.mul Rat.inv Rat.ofScientific Rat.add Rat.sub in
/-- C1 counterexample: on `exCtxC1` (recent success rate 1/4, last success one
hour ago) the source's `determineSearchStrategy` returns `diversify` (its
diversify threshold is rate < 0.3) while the claim's reference rule set
(diversify only when hours since success > 4 or rate < 0.2) returns
`balanced`, so the selection function is not the claimed rule set. -/
theorem C1_counterexample :
    determineSearchStrategy exCtxC1 = "diversify" ∧
    claimSelectStrategy exNowC1 exCtxC1 = "balanced" ∧
    determineSearchStrategy exCtxC1 ≠ claimSelectStrategy exNowC1 exCtxC1 := by decide

/-- C1 amended: the adaptive selection returns `exploit` exactly when the
recent (last-10) success rate exceeds 0.6 and the cumulative result count
exceeds 10; otherwise it returns `diversify` exactly when the recent rate is
below 0.3 (hours since the last success play no role); `balanced` is the
default.  The local generator's rule likewise puts `exploit` first, so in
both functions a success rate above 0.6 with more than 10 results selects
`exploit`. -/
theorem C1_amended (ctx : SearchContext) :
    (calculateRecentSuccessRate ctx > 0.6 ∧ ctx.totalResults > 10 →
      determineSearchStrategy ctx = "exploit") ∧
    (¬(calculateRecentSuccessRate ctx > 0.6 ∧ ctx.totalResults > 10) →
      calculateRecentSuccessRate ctx < 0.3 → determineSearchStrategy ctx = "diversify") ∧
    (¬(calculateRecentSuccessRate ctx > 0.6 ∧ ctx.totalResults > 10) →
      ¬(calculateRecentSuccessRate ctx < 0.3) → determineSearchStrategy ctx = "balanced") ∧
    (∀ now, localSuccessRate ctx > 0.6 ∧ ctx.totalResults > 10 →
      localDetermineStrategy now ctx = "exploit") := by
  refine ⟨fun h => ?_, fun h1 h2 => ?_, fun h1 h2 => ?_, fun now h => ?_⟩
  · simp only [determineSearchStrategy]
    rw [if_pos h]
  · simp only [determineSearchStrategy]
    rw [if_neg h1, if_pos h2]
  · simp only [determineSearchStrategy]
    rw [if_neg h1, if_neg h2]
  · simp only [localDetermineStrategy]
    rw [if_pos h]

unseal Rat.mul Rat.inv Rat.ofScientific Rat.add Rat.sub in
/-- Witness for C1: concrete contexts hitting the exploit clause and, as in
the specification's scenario, the diversify clause. -/
theorem C1_witness :
    determineSearchStrategy exCtxExploit = "exploit" ∧
    determineSearchStrategy exCtxScenario = "diversify" ∧
    localDetermineStrategy 0 exCtxExploit = "exploit" :=
  ⟨(C1_amended exCtxExploit).1 (by decide),
   (C1_amended exCtxScenario).2.1 (by decide) (by decide),
   (C1_amended exCtxExploit).2.2.2 0 (by decide)⟩

/-! ## C4 -/

/-- C4 counterexample: two mentions of the same (author, domain) pair whose
timestamps are both absent (empty): the deduplicator keeps the second one
(`!existing.timestamp` forces a replace), not the first-seen as claimed. -/
theorem C4_counterexample :
    deduplicateMentions [exTie1, exTie2] = [exTie2] ∧ exTie2 ≠ exTie1 := by decide

/-- `mapHas` decides membership among the stored keys. -/
theorem mapHas_iff {α : Type} (m : List (String × α)) (k : String) :
    mapHas m k = true ↔ k ∈ m.map Prod.fst := by
  simp [mapHas]

/-- `mapGet?` misses exactly the absent keys. -/
theorem mapGet?_eq_none {α : Type} (m : List (String × α)) (k : String) :
    mapGet? m k = none ↔ k ∉ m.map Prod.fst := by
  unfold mapGet?
  cases h : List.find? (fun p => p.1 == k) m with
  | none =>
    simp only [h, Option.map_none', true_iff, List.mem_map]
    rintro ⟨p, hp, hpk⟩
    have := List.find?_eq_none.mp h p hp
    simp [hpk] at this
  | some p =>
    simp only [h, Option.map_some']
    constructor
    · intro hs
      exact absurd hs (by simp)
    · intro hk
      have hbq := List.find?_some h
      simp only [beq_iff_eq] at hbq
      exact absurd (List.mem_map.mpr ⟨p, List.mem_of_find?_eq_some h, hbq⟩) hk

/-- Updating a present key leaves the key sequence unchanged. -/
theorem mapSet_keys {α : Type} (m : List (String × α)) (k : String) (v : α)
    (h : mapHas m k = true) :
    (mapSet m k v).map Prod.fst = m.map Prod.fst := by
  simp only [mapSet, h, if_true, List.map_map]
  apply List.map_congr_left
  intro p _
  by_cases hpk : p.1 = k
  · simp [hpk]
  · simp [hpk]

/-- Setting an absent key appends the new entry. -/
theorem mapSet_append {α : Type} (m : List (String × α)) (k : String) (v : α)
    (h : mapHas m k = false) :
    mapSet m k v = m ++ [(k, v)] := by
  simp [mapSet, h]

/-- One deduplication step preserves the map invariants: distinct keys, keys
computed by `dedupKey`, monotone key set, and the processed mention's key
present afterwards. -/
theorem dedupStep_inv (acc : List (String × DomainMention)) (m : DomainMention)
    (h1 : (acc.map Prod.fst).Nodup) (h2 : ∀ p ∈ acc, dedupKey p.2 = p.1) :
    ((dedupStep acc m).map Prod.fst).Nodup ∧
    (∀ p ∈ dedupStep acc m, dedupKey p.2 = p.1) ∧
    (acc.map Prod.fst ⊆ (dedupStep acc m).map Prod.fst) ∧
    dedupKey m ∈ (dedupStep acc m).map Prod.fst := by
  rcases hg : mapGet? acc (dedupKey m) with _ | ex
  · have hh : mapHas acc (dedupKey m) = false := by
      rcases h : mapHas acc (dedupKey m) with _ | _
      · rfl
      · exact absurd ((mapGet?_eq_none acc (dedupKey m)).mp hg) (by
          simpa using (mapHas_iff acc (dedupKey m)).mp h)
    have hst : dedupStep acc m = acc ++ [(dedupKey m, m)] := by
      simp only [dedupStep, hg]
      exact mapSet_append acc (dedupKey m) m hh
    have hkm : dedupKey m ∉ acc.map Prod.fst := by
      simpa using (mapGet?_eq_none acc (dedupKey m)).mp hg
    refine ⟨?_, ?_, ?_, ?_⟩
    · rw [hst]
      simp [List.nodup_append, h1, hkm]
    · rw [hst]
      intro p hp
      rcases List.mem_append.mp hp with hp | hp
      · exact h2 p hp
      · simp only [List.mem_singleton] at hp
        subst hp; rfl
    · rw [hst]; simp
    · rw [hst]; simp
  · have hh : mapHas acc (dedupKey m) = true := by
      rcases h : mapHas acc (dedupKey m) with _ | _
      · exact absurd ((mapGet?_eq_none acc (dedupKey m)).mpr (by
          simpa using (mapHas_iff acc (dedupKey m)).not.mp (by simp [h]))) (by simp [hg])
      · rfl
    have hmem : dedupKey m ∈ acc.map Prod.fst := (mapHas_iff acc (dedupKey m)).mp hh
    simp only [dedupStep, hg]
    by_cases hc : ex.timestamp = "" ∨ jsStrLt ex.timestamp m.timestamp
    · rw [if_pos hc]
      have hkeys := mapSet_keys acc (dedupKey m) m hh
      have hset : mapSet acc (dedupKey m) m =
          acc.map (fun p => if p.1 == dedupKey m then (dedupKey m, m) else p) := by
        simp [mapSet, hh]
      refine ⟨by rw [hkeys]; exact h1, ?_, by rw [hkeys]; exact List.Subset.refl _,
        by rw [hkeys]; exact hmem⟩
      intro p hp
      rw [hset] at hp
      rcases List.mem_map.mp hp with ⟨q, hq, hqp⟩
      by_cases hqk : q.1 = dedupKey m
      · have hb : (q.1 == dedupKey m) = true := beq_iff_eq.mpr hqk
        rw [if_pos hb] at hqp
        subst hqp; rfl
      · have hb : ¬((q.1 == dedupKey m) = true) := by simpa using hqk
        rw [if_neg hb] at hqp
        subst hqp
        exact h2 q hq
    · rw [if_neg hc]
      exact ⟨h1, h2, List.Subset.refl _, hmem⟩

/-- The deduplication fold maintains the invariants over a whole mention
list, and ends with every processed mention's key present. -/
theorem dedupFold_inv (ms : List DomainMention) :
    ∀ acc, (acc.map Prod.fst).Nodup → (∀ p ∈ acc, dedupKey p.2 = p.1) →
    ((ms.foldl dedupStep acc).map Prod.fst).Nodup ∧
    (∀ p ∈ ms.foldl dedupStep acc, dedupKey p.2 = p.1) ∧
    (acc.map Prod.fst ⊆ (ms.foldl dedupStep acc).map Prod.fst) ∧
    (∀ m ∈ ms, dedupKey m ∈ (ms.foldl dedupStep acc).map Prod.fst) := by
  induction ms with
  | nil => intro acc h1 h2; exact ⟨h1, h2, List.Subset.refl _, by simp⟩
  | cons m ms ih =>
    intro acc h1 h2
    obtain ⟨s1, s2, s3, s4⟩ := dedupStep_inv acc m h1 h2
    obtain ⟨t1, t2, t3, t4⟩ := ih (dedupStep acc m) s1 s2
    refine ⟨t1, t2, fun k hk => t3 (s3 hk), ?_⟩
    intro x hx
    rcases List.mem_cons.mp hx with hx | hx
    · subst hx; exact t3 s4
    · exact t4 x hx

/-- C4 amended: the deduplicator keys records by the concatenation
`username_domain` and outputs exactly one record per key (present for every
input mention's key); for two mentions sharing a key it keeps the one with
the lexicographically later timestamp when the first one's timestamp is
non-empty (first kept on ties), but when the first one's timestamp is absent
the *last-seen* mention replaces it. -/
theorem C4_amended :
    (∀ ms : List DomainMention, ((deduplicateMentions ms).map dedupKey).Nodup) ∧
    (∀ ms : List DomainMention, ∀ m ∈ ms,
      ∃ r ∈ deduplicateMentions ms, dedupKey r = dedupKey m) ∧
    (∀ a b : DomainMention, dedupKey a = dedupKey b →
      deduplicateMentions [a, b] =
        [if a.timestamp = "" ∨ jsStrLt a.timestamp b.timestamp then b else a]) := by
  refine ⟨?_, ?_, ?_⟩
  · intro ms
    obtain ⟨h1, h2, -, -⟩ := dedupFold_inv ms [] (by simp) (by simp)
    have : (deduplicateMentions ms).map dedupKey =
        (ms.foldl dedupStep []).map Prod.fst := by
      simp only [deduplicateMentions, List.map_map]
      exact List.map_congr_left (fun p hp => h2 p hp)
    rw [this]; exact h1
  · intro ms m hm
    obtain ⟨-, h2, -, h4⟩ := dedupFold_inv ms [] (by simp) (by simp)
    rcases List.mem_map.mp (h4 m hm) with ⟨p, hp, hpk⟩
    exact ⟨p.2, List.mem_map_of_mem Prod.snd hp, (h2 p hp).trans hpk⟩
  · intro a b hk
    have h1 : dedupStep [] a = [(dedupKey a, a)] := rfl
    have h2 : mapGet? [(dedupKey a, a)] (dedupKey b) = some a := by
      simp [mapGet?, hk]
    have e : deduplicateMentions [a, b] = (dedupStep (dedupStep [] a) b).map Prod.snd := rfl
    rw [e, h1]
    simp only [dedupStep, h2]
    by_cases hc : a.timestamp = "" ∨ jsStrLt a.timestamp b.timestamp
    · rw [if_pos hc, if_pos hc]
      simp [mapSet, mapHas, hk]
    · rw [if_neg hc, if_neg hc]
      rfl

unseal Rat.mul Rat.inv Rat.ofScientific Rat.add Rat.sub in
/-- Witness for C4: the two absent-timestamp mentions collapse to the
last-seen one. -/
theorem C4_witness :
    dedupKey exTie1 = dedupKey exTie2 ∧
    deduplicateMentions [exTie1, exTie2] =
      [if exTie1.timestamp = "" ∨ jsStrLt exTie1.timestamp exTie2.timestamp
       then exTie2 else exTie1] :=
  ⟨by decide, C4_amended.2.2 exTie1 exTie2 (by decide)⟩

/-! ## C5 -/

/-- Folding `Map.set` over entries with pairwise-distinct keys appends them
all in order. -/
theorem jsNewMap_aux (l : List (String × Nat)) :
    ∀ acc, (acc.map Prod.fst ++ l.map Prod.fst).Nodup →
      l.foldl (fun m p => mapSet m p.1 p.2) acc = acc ++ l := by
  induction l with
  | nil => intro acc _; simp
  | cons p tl ih =>
    intro acc h
    have hdisj : (acc.map Prod.fst).Disjoint (p.1 :: tl.map Prod.fst) :=
      ((List.nodup_append.mp (by simpa using h)).2.2)
    have hk : p.1 ∉ acc.map Prod.fst := fun hmem => hdisj hmem (List.mem_cons_self _ _)
    have hhas : mapHas acc p.1 = false :=
      Bool.eq_false_iff.mpr (fun ht => hk ((mapHas_iff _ _).mp ht))
    have hstep : mapSet acc p.1 p.2 = acc ++ [(p.1, p.2)] := mapSet_append _ _ _ hhas
    have hkeys : ((acc ++ [(p.1, p.2)]).map Prod.fst ++ tl.map Prod.fst) =
        acc.map Prod.fst ++ (p.1 :: tl.map Prod.fst) := by simp
    simp only [List.foldl_cons]
    rw [hstep, ih _ (by rw [hkeys]; simpa using h)]
    simp

/-- `new Map(entries)` rebuilds exactly the entry list when its keys are
pairwise distinct (always true for entries exported from a `Map`). -/
theorem jsNewMap_self (l : List (String × Nat)) (h : (l.map Prod.fst).Nodup) :
    jsNewMap l = l := by
  have := jsNewMap_aux l [] (by simpa using h)
  simpa [jsNewMap] using this

/-- C5: `loadState (saveState X) = X` for every strategy state whose metric
maps have pairwise-distinct keys (as every state built through `Map.set`
does), the `lastSuccessfulSearch` timestamp being rebuilt as an equal point
in time. -/
theorem C5_roundtrip (st : StrategyState)
    (h1 : (st.metrics.queryPerformance.map Prod.fst).Nodup)
    (h2 : (st.metrics.domainPopularity.map Prod.fst).Nodup) :
    loadState (saveState st) = st := by
  rcases st with ⟨ctx, qp, dp⟩
  simp only [saveState, loadState]
  rw [jsNewMap_self qp (by simpa using h1), jsNewMap_self dp (by simpa using h2)]
  rcases ctx with ⟨pq, fd, sq, fq, tr, ch, ls, av⟩
  cases ls <;> simp [jsNewDate]

/-- Witness for C5: a concrete state with non-empty maps round-trips. -/
theorem C5_witness :
    (exState5.metrics.queryPerformance.map Prod.fst).Nodup ∧
    (exState5.metrics.domainPopularity.map Prod.fst).Nodup ∧
    loadState (saveState exState5) = exState5 :=
  ⟨by decide, by decide, C5_roundtrip exState5 (by decide) (by decide)⟩

/-! ## C7 -/

unseal Rat.mul Rat.inv Rat.ofScientific Rat.add Rat.sub in
/-- C7 counterexample: with the issued-query history equal to the diversify
template list, the selected strategy is `diversify`, its filtered list is
empty, and `getNextSearchQueries` returns the empty batch even though the
balanced template list is fully fresh — there is no fallback to the balanced
templates after filtering. -/
theorem C7_counterexample :
    (getNextSearchQueries exStateC7 [] 0 14).1 = [] ∧
    determineSearchStrategy (updateContext exStateC7 [] 0 14).searchContext = "diversify" ∧
    filterUsedQueries (updateContext exStateC7 [] 0 14).searchContext balancedTemplates ≠ []
    := by decide

/-- C7 amended: there is no post-filter fallback.  When the context selects
`diversify` and every diversification template is already in the issued-query
history, the generated batch is empty (it is not replaced by the balanced
list); an empty batch simply yields no queries for the cycle. -/
theorem C7_amended (st : StrategyState) (mentions : List DomainMention) (now hour : Nat)
    (h1 : determineSearchStrategy (updateContext st mentions now hour).searchContext =
      "diversify")
    (h2 : filterUsedQueries (updateContext st mentions now hour).searchContext
      diversifyTemplates = []) :
    (getNextSearchQueries st mentions now hour).1 = [] := by
  simp only [getNextSearchQueries, h1, generateForStrategy, getDiversificationQueries, h2,
    if_pos rfl, List.take_nil]
  simp

unseal Rat.mul Rat.inv Rat.ofScientific Rat.add Rat.sub in
/-- Witness for C7: the state whose history is exactly the diversification
template list produces the empty batch. -/
theorem C7_witness : (getNextSearchQueries exStateC7 [] 0 14).1 = [] :=
  C7_amended exStateC7 [] 0 14 (by decide) (by decide)

/-! ## C2 -/

/-- No second component of the lowercase table occurs as a key of the table. -/
theorem lowerTable_snd_not_fst :
    ∀ x ∈ lowerTable, ∀ q ∈ lowerTable, q.1 ≠ x.2 := by decide

/-- The lowercase map is idempotent. -/
theorem jsToLower_idem (c : Char) : jsToLower (jsToLower c) = jsToLower c := by
  have hv : jsToLower c = c ∨ ∃ x ∈ lowerTable, x.2 = jsToLower c := by
    unfold jsToLower
    cases h : lowerTable.find? (fun p => p.1 == c) with
    | none => left; simp
    | some x => right; exact ⟨x, List.mem_of_find?_eq_some h, by simp⟩
  rcases hv with h | ⟨x, hx, hxc⟩
  · rw [h]; exact h
  · have hnone : lowerTable.find? (fun p => p.1 == x.2) = none := by
      apply List.find?_eq_none.mpr
      intro q hq
      simpa using lowerTable_snd_not_fst x hx q hq
    conv_lhs => rw [← hxc]
    rw [← hxc]
    unfold jsToLower
    rw [hnone]
    rfl

/-- The accumulator is contained in the loop's output. -/
theorem extractLoop_sub : ∀ (ms acc : List (List Char)), acc ⊆ extractLoop ms acc := by
  intro ms
  induction ms with
  | nil => intro acc; exact List.Subset.refl _
  | cons m tl ih =>
    intro acc
    simp only [extractLoop]
    by_cases hc : (!acc.contains (cleanDomain m) && validateDomain (cleanDomain m)) = true
    · rw [if_pos hc]
      exact fun x hx => ih _ (List.mem_append_left _ hx)
    · rw [if_neg hc]
      exact ih acc

/-- Everything in the loop's output is either carried in from the
accumulator or is the cleaned form of some match and passed validation. -/
theorem extractLoop_mem : ∀ (ms acc : List (List Char)) (d : List Char),
    d ∈ extractLoop ms acc →
    d ∈ acc ∨ (validateDomain d = true ∧ ∃ m ∈ ms, cleanDomain m = d) := by
  intro ms
  induction ms with
  | nil => intro acc d hd; exact Or.inl hd
  | cons m tl ih =>
    intro acc d hd
    simp only [extractLoop] at hd
    by_cases hc : (!acc.contains (cleanDomain m) && validateDomain (cleanDomain m)) = true
    · rw [if_pos hc] at hd
      rcases ih _ d hd with hin | ⟨hv, mm, hmm, hcm⟩
      · rcases List.mem_append.mp hin with h | h
        · exact Or.inl h
        · simp only [List.mem_singleton] at h
          subst h
          exact Or.inr ⟨(Bool.and_eq_true_iff.mp hc).2, m, List.mem_cons_self _ _, rfl⟩
      · exact Or.inr ⟨hv, mm, List.mem_cons_of_mem _ hmm, hcm⟩
    · rw [if_neg hc] at hd
      rcases ih _ d hd with h | ⟨hv, mm, hmm, hcm⟩
      · exact Or.inl h
      · exact Or.inr ⟨hv, mm, List.mem_cons_of_mem _ hmm, hcm⟩

/-- Every valid cleaned match reaches the loop's output. -/
theorem extractLoop_mem_rev : ∀ (ms acc : List (List Char)) (d : List Char),
    validateDomain d = true → (∃ m ∈ ms, cleanDomain m = d) →
    d ∈ extractLoop ms acc := by
  intro ms
  induction ms with
  | nil =>
    rintro acc d _ ⟨m, hm, _⟩
    exact absurd hm (List.not_mem_nil m)
  | cons m0 tl ih =>
    rintro acc d hv ⟨m, hm, hcm⟩
    simp only [extractLoop]
    rcases List.mem_cons.mp hm with hm0 | htl
    · subst hm0
      subst hcm
      by_cases hc : (!acc.contains (cleanDomain m) && validateDomain (cleanDomain m)) = true
      · rw [if_pos hc]
        exact extractLoop_sub tl _ (List.mem_append_right _ (List.mem_singleton_self _))
      · rw [if_neg hc]
        by_cases hcon : acc.contains (cleanDomain m) = true
        · exact extractLoop_sub tl acc (by simpa using hcon)
        · exfalso
          apply hc
          have hnm : cleanDomain m ∉ acc := by simpa using hcon
          simp [hv, hnm]
    · by_cases hc : (!acc.contains (cleanDomain m0) && validateDomain (cleanDomain m0)) = true
      · rw [if_pos hc]
        exact ih _ d hv ⟨m, htl, hcm⟩
      · rw [if_neg hc]
        exact ih _ d hv ⟨m, htl, hcm⟩

/-- The loop keeps the output duplicate-free. -/
theorem extractLoop_nodup : ∀ (ms acc : List (List Char)), acc.Nodup →
    (extractLoop ms acc).Nodup := by
  intro ms
  induction ms with
  | nil => intro acc h; exact h
  | cons m tl ih =>
    intro acc h
    simp only [extractLoop]
    by_cases hc : (!acc.contains (cleanDomain m) && validateDomain (cleanDomain m)) = true
    · rw [if_pos hc]
      apply ih
      have hnc : cleanDomain m ∉ acc := by
        have := (Bool.and_eq_true_iff.mp hc).1
        simpa using this
      simp [List.nodup_append, h, hnc]
    · rw [if_neg hc]
      exact ih acc h

/-- `splitOnDot` at a leading dot. -/
theorem splitOnDot_cons_dot (cs : List Char) :
    splitOnDot ('.' :: cs) = [] :: splitOnDot cs := by
  simp [splitOnDot]

/-- `splitOnDot` at a non-dot character. -/
theorem splitOnDot_cons_ne (c : Char) (cs : List Char) (h : ¬ c = '.') :
    splitOnDot (c :: cs) =
      match splitOnDot cs with
      | [] => [[c]]
      | p :: ps => (c :: p) :: ps := by
  simp [splitOnDot, h]

/-- `splitOnDot` never returns the empty list. -/
theorem splitOnDot_ne_nil (l : List Char) : splitOnDot l ≠ [] := by
  cases l with
  | nil => simp [splitOnDot]
  | cons c cs =>
    by_cases hc : c = '.'
    · subst hc
      rw [splitOnDot_cons_dot]
      simp
    · rw [splitOnDot_cons_ne c cs hc]
      cases h : splitOnDot cs <;> simp

/-- A text containing a dot splits into at least two labels. -/
theorem splitOnDot_length_ge (r : List Char) : ∀ l : List Char,
    2 ≤ (splitOnDot (l ++ '.' :: r)).length := by
  intro l
  induction l with
  | nil =>
    rw [List.nil_append, splitOnDot_cons_dot]
    simp only [List.length_cons]
    have := List.length_pos.mpr (splitOnDot_ne_nil r)
    omega
  | cons c cs ih =>
    rw [List.cons_append]
    by_cases hc : c = '.'
    · subst hc
      rw [splitOnDot_cons_dot]
      simp only [List.length_cons]
      have := List.length_pos.mpr (splitOnDot_ne_nil (cs ++ '.' :: r))
      omega
    · rw [splitOnDot_cons_ne c _ hc]
      cases h : splitOnDot (cs ++ '.' :: r) with
      | nil => exact absurd h (splitOnDot_ne_nil _)
      | cons p ps =>
        rw [h] at ih
        simpa using ih

/-- The last label of a dotted text is the last label of its final segment. -/
theorem splitOnDot_getLast (r : List Char) : ∀ l : List Char,
    (splitOnDot (l ++ '.' :: r)).getLast? = (splitOnDot r).getLast? := by
  intro l
  induction l with
  | nil =>
    rw [List.nil_append, splitOnDot_cons_dot]
    cases h : splitOnDot r with
    | nil => exact absurd h (splitOnDot_ne_nil r)
    | cons p ps => rw [List.getLast?_cons_cons]
  | cons c cs ih =>
    rw [List.cons_append]
    by_cases hc : c = '.'
    · subst hc
      rw [splitOnDot_cons_dot]
      cases h : splitOnDot (cs ++ '.' :: r) with
      | nil => exact absurd h (splitOnDot_ne_nil _)
      | cons p ps =>
        rw [List.getLast?_cons_cons]
        rw [h] at ih
        exact ih
    · rw [splitOnDot_cons_ne c _ hc]
      cases h : splitOnDot (cs ++ '.' :: r) with
      | nil => exact absurd h (splitOnDot_ne_nil _)
      | cons p ps =>
        dsimp only
        cases ps with
        | nil =>
          have h2 := splitOnDot_length_ge r cs
          rw [h] at h2
          simp at h2
        | cons p2 ps2 =>
          rw [List.getLast?_cons_cons]
          rw [h] at ih
          rw [List.getLast?_cons_cons] at ih
          exact ih

/-- A domain ending in `.skr` has final label `skr`. -/
theorem splitOnDot_last_skr (d : List Char) (h : endsWithSkr d = true) :
    (splitOnDot d).getLast? = some ['s', 'k', 'r'] := by
  have hs : ['.', 's', 'k', 'r'] <:+ d := by
    unfold endsWithSkr at h
    exact (List.isSuffixOf_iff_suffix).mp h
  rcases hs with ⟨t, ht⟩
  have hd : d = t ++ '.' :: ['s', 'k', 'r'] := by rw [← ht]
  rw [hd, splitOnDot_getLast]
  rfl

/-- `checkLabels` certifies every label except the last. -/
theorem checkLabels_dropLast : ∀ l : List (List Char), checkLabels l = true →
    ∀ p ∈ l.dropLast, labelOk p = true := by
  intro l
  induction l with
  | nil => intro _ p hp; simp at hp
  | cons a tl ih =>
    intro h p hp
    cases tl with
    | nil => simp at hp
    | cons b tl2 =>
      have hsplit : checkLabels (a :: b :: tl2) = (labelOk a && checkLabels (b :: tl2)) := rfl
      rw [hsplit] at h
      obtain ⟨h1, h2⟩ := Bool.and_eq_true_iff.mp h
      rw [List.dropLast_cons₂] at hp
      rcases List.mem_cons.mp hp with hp0 | hp2
      · subst hp0; exact h1
      · exact ih h2 p hp2

/-- An accepted label is non-empty and free of the tokenizing class. -/
theorem labelOk_spec (p : List Char) (h : labelOk p = true) :
    p ≠ [] ∧ ∀ c ∈ p, isDelim c = false := by
  obtain ⟨h1, h2⟩ := Bool.and_eq_true_iff.mp h
  refine ⟨by simpa using h1, ?_⟩
  intro c hc
  have hany : p.any isDelim = false := by simpa using h2
  have := List.any_eq_false.mp hany c hc
  simpa using this

/-- Split `validateDomain` into its three conjuncts. -/
theorem validateDomain_spec (d : List Char) (h : validateDomain d = true) :
    endsWithSkr d = true ∧ 2 ≤ (splitOnDot d).length ∧
    checkLabels (splitOnDot d) = true := by
  unfold validateDomain at h
  obtain ⟨h12, h3⟩ := Bool.and_eq_true_iff.mp h
  obtain ⟨h1, h2⟩ := Bool.and_eq_true_iff.mp h12
  exact ⟨h1, of_decide_eq_true h2, h3⟩

/-- C2: every extracted domain ends in `.skr`, is lowercase-invariant, splits
into at least two non-empty dot-labels with no tokenizing-class character in
any label before the suffix, and the output list has no duplicates. -/
theorem C2_extractor_wellformed (text : List Char) :
    (extractDomainsFromText text).Nodup ∧
    ∀ d ∈ extractDomainsFromText text,
      endsWithSkr d = true ∧
      d.map jsToLower = d ∧
      2 ≤ (splitOnDot d).length ∧
      (∀ p ∈ splitOnDot d, p ≠ []) ∧
      (∀ p ∈ (splitOnDot d).dropLast, ∀ c ∈ p, isDelim c = false) := by
  constructor
  · exact extractLoop_nodup _ [] List.nodup_nil
  · intro d hd
    rcases extractLoop_mem _ [] d hd with h | ⟨hv, m, _, hcm⟩
    · simp at h
    obtain ⟨h1, h2, h3⟩ := validateDomain_spec d hv
    refine ⟨h1, ?_, h2, ?_, ?_⟩
    · rw [← hcm]
      unfold cleanDomain
      rw [List.map_map]
      exact List.map_congr_left (fun c _ => jsToLower_idem c)
    · intro p hp
      have hne : splitOnDot d ≠ [] := splitOnDot_ne_nil d
      rw [← List.dropLast_append_getLast hne] at hp
      rcases List.mem_append.mp hp with hp | hp
      · exact (labelOk_spec p (checkLabels_dropLast _ h3 p hp)).1
      · simp only [List.mem_singleton] at hp
        subst hp
        have hlast := splitOnDot_last_skr d h1
        rw [List.getLast?_eq_getLast _ hne] at hlast
        have : (splitOnDot d).getLast hne = ['s', 'k', 'r'] := by
          injection hlast
        rw [this]
        simp
    · intro p hp c hc
      exact (labelOk_spec p (checkLabels_dropLast _ h3 p hp)).2 c hc

/-- Witness for C2: `wallet.skr` is extracted from the specification's
scenario text and satisfies the suffix and lowercase properties. -/
theorem C2_witness :
    endsWithSkr ['w', 'a', 'l', 'l', 'e', 't', '.', 's', 'k', 'r'] = true ∧
    List.map jsToLower ['w', 'a', 'l', 'l', 'e', 't', '.', 's', 'k', 'r'] =
      ['w', 'a', 'l', 'l', 'e', 't', '.', 's', 'k', 'r'] :=
  ⟨((C2_extractor_wellformed
      "just registered wallet.skr for my new project @solana".toList).2
      ['w', 'a', 'l', 'l', 'e', 't', '.', 's', 'k', 'r'] (by decide)).1,
   ((C2_extractor_wellformed
      "just registered wallet.skr for my new project @solana".toList).2
      ['w', 'a', 'l', 'l', 'e', 't', '.', 's', 'k', 'r'] (by decide)).2.1⟩

/-! ## C3 -/

/-- Anything surviving `filterUsedQueries` is absent from the issued-query
history. -/
theorem mem_filterUsed (ctx : SearchContext) (l : List String) (q : String)
    (h : q ∈ filterUsedQueries ctx l) : q ∉ ctx.previousQueries := by
  have := (List.mem_filter.mp h).2
  simpa using this

/-- A filtered-then-truncated batch is bounded by 6 and fresh. -/
theorem takeSix_spec (ctx : SearchContext) (l : List String) :
    ((filterUsedQueries ctx l).take 6).length ≤ 6 ∧
    ∀ q ∈ (filterUsedQueries ctx l).take 6, q ∉ ctx.previousQueries :=
  ⟨List.length_take_le _ _,
   fun q hq => mem_filterUsed ctx l q (List.take_subset _ _ hq)⟩

/-- Filtering a template list of at most 6 queries is bounded by 6 and
fresh. -/
theorem filterShort_spec (ctx : SearchContext) (l : List String) (h : l.length ≤ 6) :
    (filterUsedQueries ctx l).length ≤ 6 ∧
    ∀ q ∈ filterUsedQueries ctx l, q ∉ ctx.previousQueries :=
  ⟨le_trans (List.length_filter_le _ _) h, fun q hq => mem_filterUsed ctx l q hq⟩

/-- Every strategy branch generates at most 6 queries, none of which is in
the issued-query history. -/
theorem generateForStrategy_spec (strategy : String) (ctx : SearchContext) (hour : Nat) :
    (generateForStrategy strategy ctx hour).search_queries.length ≤ 6 ∧
    ∀ q ∈ (generateForStrategy strategy ctx hour).search_queries,
      q ∉ ctx.previousQueries := by
  unfold generateForStrategy
  split_ifs
  · exact takeSix_spec ctx diversifyTemplates
  · exact takeSix_spec ctx _
  · exact filterShort_spec ctx _ (by simp [mockTrends])
  · exact filterShort_spec ctx _ (by split_ifs <;> simp)
  · exact takeSix_spec ctx _
  · exact filterShort_spec ctx _ (by simp [balancedTemplates])

/-- A paired fold whose step preserves a projection of the first component
preserves it overall. -/
theorem foldl_fst_preserves {α β γ : Type} (F : β × γ → α → β × γ)
    (P : β → List String) (hF : ∀ p a, P (F p a).1 = P p.1) :
    ∀ (l : List α) (p : β × γ), P ((l.foldl F p).1) = P p.1 := by
  intro l
  induction l with
  | nil => intro p; rfl
  | cons a l ih => intro p; rw [List.foldl_cons, ih, hF]

/-- `updateContext` never touches the issued-query history. -/
theorem updateContext_prev (st : StrategyState) (mentions : List DomainMention)
    (now hour : Nat) :
    (updateContext st mentions now hour).searchContext.previousQueries =
      st.searchContext.previousQueries := by
  simp only [updateContext]
  by_cases hm : mentions.length > 0
  · rw [if_pos hm]
    exact foldl_fst_preserves _ SearchContext.previousQueries
      (by
        intro p a
        by_cases hd : a.domain ∈ p.1.foundDomains <;> simp [hd])
      mentions _
  · rw [if_neg hm]

/-- `recordQueryResult` never touches the issued-query history. -/
theorem recordQueryResult_prev (st : StrategyState) (q : String) (n : Nat) :
    (recordQueryResult st q n).searchContext.previousQueries =
      st.searchContext.previousQueries := by
  simp only [recordQueryResult]
  split_ifs <;> rfl

/-- Recording a batch of results never touches the issued-query history. -/
theorem foldl_record_prev (l : List String) (g : String → Nat) :
    ∀ st : StrategyState,
      ((l.foldl (fun s q => recordQueryResult s q (g q)) st).searchContext.previousQueries =
        st.searchContext.previousQueries) := by
  induction l with
  | nil => intro st; rfl
  | cons q l ih => intro st; rw [List.foldl_cons, ih, recordQueryResult_prev]

/-- One `getNextSearchQueries` call: the batch is bounded by 6, disjoint from
the prior history, and is appended to the history. -/
theorem getNext_spec (st : StrategyState) (mentions : List DomainMention) (now hour : Nat) :
    (getNextSearchQueries st mentions now hour).1.length ≤ 6 ∧
    (∀ q ∈ (getNextSearchQueries st mentions now hour).1,
      q ∉ st.searchContext.previousQueries) ∧
    (getNextSearchQueries st mentions now hour).2.searchContext.previousQueries =
      st.searchContext.previousQueries ++ (getNextSearchQueries st mentions now hour).1 := by
  have hprev := updateContext_prev st mentions now hour
  obtain ⟨hlen, hfresh⟩ := generateForStrategy_spec
    (determineSearchStrategy (updateContext st mentions now hour).searchContext)
    (updateContext st mentions now hour).searchContext hour
  refine ⟨hlen, ?_, ?_⟩
  · intro q hq
    rw [← hprev]
    exact hfresh q hq
  · show (updateContext st mentions now hour).searchContext.previousQueries ++
      (getNextSearchQueries st mentions now hour).1 =
      st.searchContext.previousQueries ++ (getNextSearchQueries st mentions now hour).1
    rw [hprev]

/-- `runCycles` produces one batch per cycle input. -/
theorem runCycles_length (cis : List CycleInput) :
    ∀ st, (runCycles st cis).1.length = cis.length := by
  induction cis with
  | nil => intro st; rfl
  | cons ci rest ih => intro st; simp [runCycles, ih]

/-- A query already in the history never appears in any batch generated by
later cycles. -/
theorem runCycles_not_mem (cis : List CycleInput) :
    ∀ (st : StrategyState) (q : String),
      q ∈ st.searchContext.previousQueries →
      ∀ b ∈ (runCycles st cis).1, q ∉ b := by
  induction cis with
  | nil => intro st q _ b hb; simp [runCycles] at hb
  | cons ci rest ih =>
    intro st q hq b hb
    simp only [runCycles] at hb
    rcases List.mem_cons.mp hb with hb | hb
    · subst hb
      intro hqb
      exact (getNext_spec st ci.mentions ci.now ci.hour).2.1 q hqb hq
    · refine ih _ q ?_ b hb
      rw [foldl_record_prev, (getNext_spec st ci.mentions ci.now ci.hour).2.2]
      exact List.mem_append_left _ hq

/-- Batches of distinct cycles are disjoint: a query issued in an earlier
cycle never reappears in a later batch. -/
theorem runCycles_pairwise (cis : List CycleInput) :
    ∀ (st : StrategyState) (i j : Nat) (hij : i < j)
      (hj : j < (runCycles st cis).1.length) (q : String),
      q ∈ (runCycles st cis).1.get ⟨i, Nat.lt_trans hij hj⟩ →
      q ∉ (runCycles st cis).1.get ⟨j, hj⟩ := by
  induction cis with
  | nil =>
    intro st i j hij hj
    rw [runCycles_length] at hj
    exact absurd hj (by simp)
  | cons ci rest ih =>
    intro st i j hij hj q hqi
    rcases j with _ | j'
    · exact absurd hij (Nat.not_lt_zero i)
    rcases i with _ | i'
    · simp only [runCycles] at hj hqi ⊢
      rw [List.get_cons_succ]
      have hq2 : q ∈ (List.foldl
          (fun s q => recordQueryResult s q (mapGetD ci.results q 0))
          (getNextSearchQueries st ci.mentions ci.now ci.hour).2
          (getNextSearchQueries st ci.mentions ci.now ci.hour).1).searchContext.previousQueries := by
        rw [foldl_record_prev, (getNext_spec st ci.mentions ci.now ci.hour).2.2]
        exact List.mem_append_right _ hqi
      exact runCycles_not_mem rest _ q hq2 _ (List.get_mem _ _ _)
    · simp only [runCycles] at hj hqi ⊢
      rw [List.get_cons_succ] at hqi ⊢
      simp only [List.length_cons] at hj
      exact ih _ i' j' (Nat.lt_of_succ_lt_succ hij) (Nat.lt_of_succ_lt_succ hj) q hqi

/-- C3: every strategy's batch is at most 6 queries and excludes the whole
issued-query history; each call appends its batch to the history; hence over
any run of cycles a query from an earlier batch never reappears in a later
batch. -/
theorem C3_no_repeat :
    (∀ strategy ctx hour,
      (generateForStrategy strategy ctx hour).search_queries.length ≤ 6 ∧
      ∀ q ∈ (generateForStrategy strategy ctx hour).search_queries,
        q ∉ ctx.previousQueries) ∧
    (∀ (st : StrategyState) (mentions : List DomainMention) (now hour : Nat),
      (getNextSearchQueries st mentions now hour).1.length ≤ 6 ∧
      (∀ q ∈ (getNextSearchQueries st mentions now hour).1,
        q ∉ st.searchContext.previousQueries) ∧
      (getNextSearchQueries st mentions now hour).2.searchContext.previousQueries =
        st.searchContext.previousQueries ++ (getNextSearchQueries st mentions now hour).1) ∧
    (∀ (st : StrategyState) (cis : List CycleInput) (i j : Nat) (hij : i < j)
      (hj : j < (runCycles st cis).1.length) (q : String),
      q ∈ (runCycles st cis).1.get ⟨i, Nat.lt_trans hij hj⟩ →
      q ∉ (runCycles st cis).1.get ⟨j, hj⟩) :=
  ⟨generateForStrategy_spec, getNext_spec,
   fun st cis i j hij hj q => runCycles_pairwise cis st i j hij hj q⟩

unseal Rat.mul Rat.inv Rat.ofScientific Rat.add Rat.sub in
/-- Witness for C3: over two concrete cycles, the first batch's head query
does not reappear in the second batch. -/
theorem C3_witness :
    "bought my .skr" ∉ (runCycles exState0 [exCycle, exCycle]).1.get
      ⟨1, by rw [runCycles_length]; decide⟩ :=
  C3_no_repeat.2.2 exState0 [exCycle, exCycle] 0 1 (by decide)
    (by rw [runCycles_length]; decide) "bought my .skr" (by decide)

/-! ## C9 -/

/-- `Set.add` never removes a member. -/
theorem setAdd_contains_mono (s : List String) (x u : String)
    (h : s.contains u = true) : (setAdd s x).contains u = true := by
  have hm : u ∈ s := by simpa using h
  unfold setAdd
  by_cases hc : s.contains x = true
  · rw [if_pos hc]; exact h
  · rw [if_neg hc]; simp [hm]

/-- One enrichment step only grows the store and the processed set, so a
cached (author, domain) pair stays cached. -/
theorem enrichStep_cached_mono (lookup : String → Option UserDetails) (nowStr : String)
    (acc : EnrichAcc) (m : DomainMention) (u d : String)
    (h : cachedPair acc.st u d) :
    cachedPair (enrichStep lookup nowStr acc m).st u d := by
  obtain ⟨hu, item, hitem, hprop⟩ := h
  unfold enrichStep
  split
  · exact ⟨hu, item, hitem, hprop⟩
  · cases hlk : lookup m.username with
    | some ud =>
      refine ⟨setAdd_contains_mono _ _ _ hu, item, List.mem_append_left _ hitem, hprop⟩
    | none => exact ⟨hu, item, hitem, hprop⟩

/-- When the processed mention's pair is cached, the step performs no lookup. -/
theorem enrichStep_lookups_of_cached (lookup : String → Option UserDetails) (nowStr : String)
    (acc : EnrichAcc) (m : DomainMention)
    (h : cachedPair acc.st m.username m.domain) :
    (enrichStep lookup nowStr acc m).lookups = acc.lookups := by
  obtain ⟨hu, item, hitem, hprop⟩ := h
  have hrec : (cachedRecord? acc.st m).isSome := by
    apply List.find?_isSome.mpr
    exact ⟨item, hitem, by simp [hprop.1, hprop.2]⟩
  unfold enrichStep
  split
  · rfl
  · next heq =>
    rw [if_pos hu] at heq
    rw [heq] at hrec
    simp at hrec

/-- A step either performs no lookup or looks up exactly the processed
mention. -/
theorem enrichStep_lookups_cases (lookup : String → Option UserDetails) (nowStr : String)
    (acc : EnrichAcc) (m : DomainMention) :
    (enrichStep lookup nowStr acc m).lookups = acc.lookups ∨
    (enrichStep lookup nowStr acc m).lookups = acc.lookups ++ [m] := by
  unfold enrichStep
  split
  · exact Or.inl rfl
  · cases lookup m.username with
    | some ud => exact Or.inr rfl
    | none => exact Or.inr rfl

/-- C9: once an author has a stored record for a domain, running the
enrichment stage over any mention list never invokes the user-lookup
collaborator for that (author, domain) pair again. -/
theorem C9_cached_no_lookup (st : ScoutState) (u d : String)
    (lookup : String → Option UserDetails) (nowStr : String) (mentions : List DomainMention)
    (hc : cachedPair st u d) :
    (enrichWithUserData st mentions lookup nowStr).lookups.filter
      (fun m => m.username == u && m.domain == d) = [] := by
  suffices h : ∀ acc : EnrichAcc, cachedPair acc.st u d →
      acc.lookups.filter (fun m => m.username == u && m.domain == d) = [] →
      (mentions.foldl (enrichStep lookup nowStr) acc).lookups.filter
        (fun m => m.username == u && m.domain == d) = [] by
    exact h ⟨st, [], []⟩ hc rfl
  induction mentions with
  | nil => intro acc _ h2; exact h2
  | cons m ms ih =>
    intro acc h1 h2
    simp only [List.foldl_cons]
    apply ih
    · exact enrichStep_cached_mono lookup nowStr acc m u d h1
    · by_cases hm : m.username = u ∧ m.domain = d
      · rw [enrichStep_lookups_of_cached lookup nowStr acc m (by
          rw [hm.1, hm.2]; exact h1)]
        exact h2
      · rcases enrichStep_lookups_cases lookup nowStr acc m with he | he
        · rw [he]; exact h2
        · rw [he, List.filter_append, h2]
          have : (m.username == u && m.domain == d) = false := by
            rcases not_and_or.mp hm with h | h
            · simp [h]
            · simp [h]
          simp [this]

/-- Witness for C9: with the record for (`alice`, `a.skr`) cached, two fresh
mentions of the pair trigger no lookup. -/
theorem C9_witness :
    cachedPair exScout1 "alice" "a.skr" ∧
    (enrichWithUserData exScout1 [exMentionAlice, exMentionAlice] exLookup "n").lookups.filter
      (fun m => m.username == "alice" && m.domain == "a.skr") = [] :=
  ⟨by decide,
   C9_cached_no_lookup exScout1 "alice" "a.skr" exLookup "n"
     [exMentionAlice, exMentionAlice] (by decide)⟩

/-! ## C8 -/

/-- C8 counterexample: extraction does not distribute over plain
concatenation: `"ab"` and `".skr"` each extract to nothing, but their
concatenation extracts `ab.skr`. -/
theorem C8_counterexample :
    extractDomainsFromText ("ab".toList ++ ".skr".toList) =
      [['a', 'b', '.', 's', 'k', 'r']] ∧
    extractDomainsFromText "ab".toList = [] ∧
    extractDomainsFromText ".skr".toList = [] := by decide

/-- `scanAux` ignores fuel on the empty text. -/
theorem scanAux_nil (n : Nat) : scanAux n [] = [] := by
  cases n <;> rfl

/-- `dropWhile` never lengthens a list. -/
theorem length_dropWhile_le' (p : Char → Bool) (l : List Char) :
    (l.dropWhile p).length ≤ l.length := by
  induction l with
  | nil => simp
  | cons a l ih =>
    rw [List.dropWhile_cons]
    by_cases ha : p a = true
    · rw [if_pos ha]
      exact Nat.le_succ_of_le ih
    · rw [if_neg ha]

/-- The scanner is insensitive to the exact fuel, given enough of it. -/
theorem scanAux_congr : ∀ (k : Nat) (l : List Char) (n m : Nat),
    l.length ≤ k → l.length ≤ n → l.length ≤ m → scanAux n l = scanAux m l := by
  intro k
  induction k with
  | zero =>
    intro l n m h1 _ _
    have hl : l = [] := List.length_eq_zero.mp (Nat.le_zero.mp h1)
    subst hl
    rw [scanAux_nil, scanAux_nil]
  | succ k ih =>
    intro l n m h1 h2 h3
    cases l with
    | nil => rw [scanAux_nil, scanAux_nil]
    | cons c cs =>
      cases n with
      | zero => simp at h2
      | succ n' =>
        cases m with
        | zero => simp at h3
        | succ m' =>
          have hcs1 : cs.length ≤ k := by simpa using h1
          have hcs2 : cs.length ≤ n' := by simpa using h2
          have hcs3 : cs.length ≤ m' := by simpa using h3
          show scanAux (n' + 1) (c :: cs) = scanAux (m' + 1) (c :: cs)
          simp only [scanAux]
          by_cases hd : isDelim c = true
          · rw [if_pos hd, if_pos hd]
            exact ih cs n' m' hcs1 hcs2 hcs3
          · rw [if_neg hd, if_neg hd]
            have hrest : ((c :: cs).dropWhile (fun x => !isDelim x)).length ≤ cs.length := by
              rw [List.dropWhile_cons, if_pos (by simp [hd])]
              exact length_dropWhile_le' _ cs
            have hdrop :
                (((c :: cs).dropWhile (fun x => !isDelim x)).drop 4).length ≤ cs.length := by
              rw [List.length_drop]
              omega
            by_cases hs : hasSkrSuffix ((c :: cs).dropWhile (fun x => !isDelim x)) = true
            · rw [if_pos hs, if_pos hs]
              congr 1
              exact ih _ n' m' (le_trans hdrop hcs1) (le_trans hdrop hcs2)
                (le_trans hdrop hcs3)
            · rw [if_neg hs, if_neg hs]
              exact ih cs n' m' hcs1 hcs2 hcs3

/-- Scanning the empty text. -/
theorem scanMatches_nil : scanMatches [] = [] := rfl

/-- Scanning from a delimiter character skips it. -/
theorem scanMatches_cons_delim (c : Char) (cs : List Char) (hd : isDelim c = true) :
    scanMatches (c :: cs) = scanMatches cs := by
  show scanAux (cs.length + 1) (c :: cs) = scanAux cs.length cs
  simp only [scanAux]
  rw [if_pos hd]

/-- Scanning from a non-delimiter character: take the delimiter-free run; on
a `.skr` continuation emit the match and resume after it, otherwise retry
from the next character. -/
theorem scanMatches_cons_go (c : Char) (cs : List Char) (hd : isDelim c = false) :
    scanMatches (c :: cs) =
      (if hasSkrSuffix ((c :: cs).dropWhile (fun x => !isDelim x)) then
        ((c :: cs).takeWhile (fun x => !isDelim x) ++
          ((c :: cs).dropWhile (fun x => !isDelim x)).take 4) ::
          scanMatches (((c :: cs).dropWhile (fun x => !isDelim x)).drop 4)
      else scanMatches cs) := by
  show scanAux (cs.length + 1) (c :: cs) = _
  simp only [scanAux]
  rw [if_neg (by simp [hd])]
  have hrest : ((c :: cs).dropWhile (fun x => !isDelim x)).length ≤ cs.length := by
    rw [List.dropWhile_cons, if_pos (by simp [hd])]
    exact length_dropWhile_le' _ cs
  by_cases hs : hasSkrSuffix ((c :: cs).dropWhile (fun x => !isDelim x)) = true
  · rw [if_pos hs, if_pos hs]
    congr 1
    apply scanAux_congr cs.length _ cs.length _
    · rw [List.length_drop]; omega
    · rw [List.length_drop]; omega
    · exact le_refl _
  · rw [if_neg hs, if_neg hs]
    rfl

/-- `takeWhile` across an append. -/
theorem takeWhile_append' (p : Char → Bool) : ∀ (a b : List Char),
    (a ++ b).takeWhile p = if a.all p then a ++ b.takeWhile p else a.takeWhile p := by
  intro a b
  induction a with
  | nil => simp
  | cons x xs ih =>
    simp only [List.cons_append, List.takeWhile_cons, List.all_cons]
    by_cases hx : p x = true
    · simp only [hx, if_true, Bool.true_and]
      rw [ih]
      by_cases hall : xs.all p = true
      · rw [if_pos hall, if_pos hall]
      · rw [if_neg hall, if_neg hall]
    · have hx' : p x = false := by simpa using hx
      simp [hx']

/-- `dropWhile` across an append. -/
theorem dropWhile_append' (p : Char → Bool) : ∀ (a b : List Char),
    (a ++ b).dropWhile p = if a.all p then b.dropWhile p else a.dropWhile p ++ b := by
  intro a b
  induction a with
  | nil => simp
  | cons x xs ih =>
    simp only [List.cons_append, List.dropWhile_cons, List.all_cons]
    by_cases hx : p x = true
    · simp only [hx, if_true, Bool.true_and]
      rw [ih]
    · have hx' : p x = false := by simpa using hx
      simp [hx']

/-- A `.skr` continuation needs at least 4 characters. -/
theorem hasSkrSuffix_length (l : List Char) (h : hasSkrSuffix l = true) :
    4 ≤ l.length := by
  rcases l with _ | ⟨c0, _ | ⟨c1, _ | ⟨c2, _ | ⟨c3, r⟩⟩⟩⟩
  · simp [hasSkrSuffix] at h
  · simp [hasSkrSuffix] at h
  · simp [hasSkrSuffix] at h
  · simp [hasSkrSuffix] at h
  · simp

/-- The `.skr` test only reads the first 4 characters. -/
theorem hasSkrSuffix_append_long (l z : List Char) (h : 4 ≤ l.length) :
    hasSkrSuffix (l ++ z) = hasSkrSuffix l := by
  rcases l with _ | ⟨c0, _ | ⟨c1, _ | ⟨c2, _ | ⟨c3, r⟩⟩⟩⟩
  · simp at h
  · simp at h
  · simp at h
  · simp at h
  · rfl

/-- A window that reaches across a space never matches `.skr`. -/
theorem hasSkrSuffix_short_space : ∀ (l z : List Char), l.length < 4 →
    hasSkrSuffix (l ++ ' ' :: z) = false := by
  intro l z hlen
  rcases l with _ | ⟨a, _ | ⟨b, _ | ⟨c, _ | ⟨d, r⟩⟩⟩⟩
  · rcases z with _ | ⟨z1, _ | ⟨z2, _ | ⟨z3, zr⟩⟩⟩ <;> rfl
  · rcases z with _ | ⟨z1, _ | ⟨z2, zr⟩⟩ <;>
      simp [hasSkrSuffix, show (' ' == 's') = false from rfl,
        show (' ' == 'S') = false from rfl]
  · rcases z with _ | ⟨z1, zr⟩ <;>
      simp [hasSkrSuffix, show (' ' == 'k') = false from rfl,
        show (' ' == 'K') = false from rfl]
  · simp [hasSkrSuffix, show (' ' == 'r') = false from rfl,
      show (' ' == 'R') = false from rfl]
  · simp at hlen
    omega

/-- Scanning distributes over texts joined by a space: the matches of the
concatenation are the matches of the pieces, in order. -/
theorem scanMatches_append (l2 : List Char) : ∀ (n : Nat) (l1 : List Char),
    l1.length ≤ n →
    scanMatches (l1 ++ ' ' :: l2) = scanMatches l1 ++ scanMatches l2 := by
  intro n
  induction n with
  | zero =>
    intro l1 h
    have hl : l1 = [] := List.length_eq_zero.mp (Nat.le_zero.mp h)
    subst hl
    rw [List.nil_append, scanMatches_cons_delim ' ' l2 (by rfl), scanMatches_nil,
      List.nil_append]
  | succ n ih =>
    intro l1 hlen
    cases l1 with
    | nil =>
      rw [List.nil_append, scanMatches_cons_delim ' ' l2 (by rfl), scanMatches_nil,
        List.nil_append]
    | cons c cs =>
      have hcs : cs.length ≤ n := by simpa using hlen
      by_cases hd : isDelim c = true
      · rw [List.cons_append, scanMatches_cons_delim c _ hd, scanMatches_cons_delim c cs hd]
        exact ih cs hcs
      · have hd' : isDelim c = false := by simpa using hd
        rw [List.cons_append, scanMatches_cons_go c (cs ++ ' ' :: l2) hd',
          scanMatches_cons_go c cs hd']
        rw [← List.cons_append]
        have hall_or :
            ((c :: cs) ++ ' ' :: l2).takeWhile (fun x => !isDelim x) =
              (c :: cs).takeWhile (fun x => !isDelim x) := by
          rw [takeWhile_append' _ (c :: cs) (' ' :: l2)]
          by_cases hall : (c :: cs).all (fun x => !isDelim x) = true
          · rw [if_pos hall]
            rw [List.takeWhile_cons, if_neg (by decide)]
            rw [List.takeWhile_eq_self_iff.mpr (by simpa using List.all_eq_true.mp hall)]
            simp
          · rw [if_neg hall]
        have hrest_or :
            ((c :: cs) ++ ' ' :: l2).dropWhile (fun x => !isDelim x) =
              (c :: cs).dropWhile (fun x => !isDelim x) ++ ' ' :: l2 := by
          rw [dropWhile_append' _ (c :: cs) (' ' :: l2)]
          by_cases hall : (c :: cs).all (fun x => !isDelim x) = true
          · rw [if_pos hall]
            rw [List.dropWhile_cons, if_neg (by decide)]
            rw [List.dropWhile_eq_nil_iff.mpr (by simpa using List.all_eq_true.mp hall)]
            rfl
          · rw [if_neg hall]
        rw [hall_or, hrest_or]
        have hrest_len :
            ((c :: cs).dropWhile (fun x => !isDelim x)).length ≤ cs.length := by
          rw [List.dropWhile_cons, if_pos (by simp [hd'])]
          exact length_dropWhile_le' _ cs
        by_cases hs : hasSkrSuffix ((c :: cs).dropWhile (fun x => !isDelim x)) = true
        · have h4 : 4 ≤ ((c :: cs).dropWhile (fun x => !isDelim x)).length :=
            hasSkrSuffix_length _ hs
          rw [hasSkrSuffix_append_long _ _ h4]
          rw [if_pos hs, if_pos hs]
          rw [List.take_append_of_le_length h4, List.drop_append_of_le_length h4]
          rw [List.cons_append]
          congr 1
          apply ih
          rw [List.length_drop]
          omega
        · have hs' : hasSkrSuffix ((c :: cs).dropWhile (fun x => !isDelim x)) = false := by
            simpa using hs
          have hcond :
              hasSkrSuffix (((c :: cs).dropWhile (fun x => !isDelim x)) ++ ' ' :: l2) =
                false := by
            by_cases h4 : 4 ≤ ((c :: cs).dropWhile (fun x => !isDelim x)).length
            · rw [hasSkrSuffix_append_long _ _ h4]
              exact hs'
            · exact hasSkrSuffix_short_space _ _ (by omega)
          rw [if_neg (by simp [hcond]), if_neg (by simp [hs'])]
          exact ih cs hcs

/-- Membership in the extractor's output: exactly the valid cleaned matches. -/
theorem extract_mem_iff (text d : List Char) :
    d ∈ extractDomainsFromText text ↔
      validateDomain d = true ∧ ∃ m ∈ scanMatches text, cleanDomain m = d := by
  constructor
  · intro hd
    rcases extractLoop_mem _ [] d hd with h | h
    · simp at h
    · exact h
  · rintro ⟨hv, hm⟩
    exact extractLoop_mem_rev _ [] d hv hm

/-- C8 amended: extraction is a pure function (repeat runs agree trivially),
and it distributes as a set union over texts joined by a whitespace
separator; unrestricted concatenation does not distribute, as matches can
span the seam (see the counterexample). -/
theorem C8_amended (t1 t2 d : List Char) :
    d ∈ extractDomainsFromText (t1 ++ ' ' :: t2) ↔
      d ∈ extractDomainsFromText t1 ∨ d ∈ extractDomainsFromText t2 := by
  rw [extract_mem_iff, extract_mem_iff, extract_mem_iff]
  rw [scanMatches_append t2 t1.length t1 (le_refl _)]
  constructor
  · rintro ⟨hv, m, hm, hcm⟩
    rcases List.mem_append.mp hm with h | h
    · exact Or.inl ⟨hv, m, h, hcm⟩
    · exact Or.inr ⟨hv, m, h, hcm⟩
  · rintro (⟨hv, m, hm, hcm⟩ | ⟨hv, m, hm, hcm⟩)
    · exact ⟨hv, m, List.mem_append_left _ hm, hcm⟩
    · exact ⟨hv, m, List.mem_append_right _ hm, hcm⟩

/-! ## C6 -/

/-- C6 counterexample: `saveData` writes the data, CSV, progress and
adaptive-state files with four separate in-place writes; a load performed
after the first write of a new save observes the new data file together with
the old progress and adaptive-state files — a state that is neither the
complete old nor the complete new checkpoint. -/
theorem C6_counterexample :
    loadView (applyOps (applyOps (fun _ => none) (saveDataOps exScout0 "n0" exDir))
        ((saveDataOps exScout1 "n1" exDir).take 1)) exDir ≠
      loadView (applyOps (fun _ => none) (saveDataOps exScout0 "n0" exDir)) exDir ∧
    loadView (applyOps (applyOps (fun _ => none) (saveDataOps exScout0 "n0" exDir))
        ((saveDataOps exScout1 "n1" exDir).take 1)) exDir ≠
      loadView (applyOps (applyOps (fun _ => none) (saveDataOps exScout0 "n0" exDir))
        (saveDataOps exScout1 "n1" exDir)) exDir := by decide

/-- Appending distinct suffixes to the same directory yields distinct paths. -/
theorem append_ne (dir s t : String) (h : s ≠ t) : dir ++ s ≠ dir ++ t := by
  intro he
  apply h
  have hd : (dir ++ s).data = (dir ++ t).data := congrArg String.data he
  rw [String.data_append, String.data_append] at hd
  exact String.ext (List.append_cancel_left hd)

/-- C6 amended: `saveData` performs exactly four direct in-place writes (no
temp file, no rename), and a reader that loads after the first write of a
new save observes the new data document together with the old progress and
adaptive-state documents — a mixed state, so the write pattern does not
provide atomicity. -/
theorem C6_amended :
    (∀ (st : ScoutState) (nowStr dir : String),
      saveDataOps st nowStr dir =
        [FsOp.write (dir ++ "/scouted_data.json") (FileDoc.dataDoc st.scoutedData),
         FsOp.write (dir ++ "/scouted_data.csv") (FileDoc.csvDoc st.scoutedData),
         FsOp.write (dir ++ "/progress.json")
           (FileDoc.progressDoc { st.progress with lastCheckpoint := nowStr }),
         FsOp.write (dir ++ "/adaptive_state.json")
           (FileDoc.adaptiveDoc (saveState st.adaptive))] ∧
      ∀ op ∈ saveDataOps st nowStr dir, op.isRename = false) ∧
    (∀ (s0 s1 : ScoutState) (n0 n1 dir : String) (fs0 : String → Option FileDoc),
      loadView (applyOps (applyOps fs0 (saveDataOps s0 n0 dir))
        ((saveDataOps s1 n1 dir).take 1)) dir =
      (some (FileDoc.dataDoc s1.scoutedData),
       some (FileDoc.progressDoc { s0.progress with lastCheckpoint := n0 }),
       some (FileDoc.adaptiveDoc (saveState s0.adaptive)))) := by
  constructor
  · intro st nowStr dir
    refine ⟨rfl, ?_⟩
    intro op hop
    simp [saveDataOps] at hop
    rcases hop with rfl | rfl | rfl | rfl <;> rfl
  · intro s0 s1 n0 n1 dir fs0
    have h1 : dir ++ "/progress.json" ≠ dir ++ "/scouted_data.json" :=
      append_ne dir _ _ (by decide)
    have h2 : dir ++ "/adaptive_state.json" ≠ dir ++ "/scouted_data.json" :=
      append_ne dir _ _ (by decide)
    have h3 : dir ++ "/progress.json" ≠ dir ++ "/adaptive_state.json" :=
      append_ne dir _ _ (by decide)
    have h4 : dir ++ "/progress.json" ≠ dir ++ "/scouted_data.csv" :=
      append_ne dir _ _ (by decide)
    have h5 : dir ++ "/adaptive_state.json" ≠ dir ++ "/scouted_data.csv" :=
      append_ne dir _ _ (by decide)
    simp [saveDataOps, applyOps, applyOp, loadView, h1, h2, h3, h4, h5]

end SeekerScout
